import Mathlib

/-!
Shallow embedding of the `cargo-lock-diff` library (files `src/difference.rs`
and `src/lib.rs`) together with proofs about it.

Rust `String` values are embedded as Lean `String`; Rust's derived `Ord` on
`String` (lexicographic byte order) is embedded as the executable
lexicographic comparator `strLe` over the code-point list `String.data`
(these agree on UTF-8 encoded text).  Machine integers (`u8`) are embedded
as `Nat` (no arithmetic is performed on them, only equality).  `HashSet` /
`HashMap` are embedded as deduplicated lists / association lists with a
fixed iteration order; determinism of the final sorted results with respect
to the choice of iteration order is proved, not assumed.  Rust `panic!` is
embedded as `Option.none`.  `Vec::sort` (a stable sort by the derived total
order) is embedded as `List.insertionSort`, a stable sort.
-/

/-- Embedding of `enum Difference<T>` from `src/difference.rs`, with the
variants in their Rust declaration order (`Empty`, `Equal`, `Removed`,
`Modified`, `Added`), which is the order the derived `Ord` uses. -/
inductive Difference (T : Type) where
  | Empty : Difference T
  | Equal (v : T) : Difference T
  | Removed (v : T) : Difference T
  | Modified (old new : T) : Difference T
  | Added (v : T) : Difference T
deriving DecidableEq, Repr

namespace Difference

variable {T : Type}

/-- Embedding of `Difference::is_equal`: `matches!(self, Difference::Equal(_))`. -/
def is_equal : Difference T → Bool
  | .Equal _ => true
  | _ => false

/-- Embedding of `Difference::is_empty`: `matches!(self, Difference::Empty)`. -/
def is_empty : Difference T → Bool
  | .Empty => true
  | _ => false

/-- Embedding of `Difference::diff`: `if a == b { Equal(a) } else { Modified { old: a, new: b } }`. -/
def diff [DecidableEq T] (a b : T) : Difference T :=
  if a = b then .Equal a else .Modified a b

/-- Embedding of `Difference::diff_opt`: the four-way match on option presence. -/
def diff_opt [DecidableEq T] : Option T → Option T → Difference T
  | none, none => .Empty
  | none, some b => .Added b
  | some a, none => .Removed a
  | some a, some b => if a = b then .Equal a else .Modified a b

/-- Discriminant of the variant in declaration order, as used by the derived
`Ord` on `Difference` (variants compare by declaration order first). -/
def rank : Difference T → Nat
  | .Empty => 0
  | .Equal _ => 1
  | .Removed _ => 2
  | .Modified _ _ => 3
  | .Added _ => 4

/-- Embedding of the derived `Ord` on `Difference<T>` as a boolean `≤`
comparator, parametrized by a comparator `le` embedding `T: Ord`: variants
compare by declaration order (`Empty < Equal < Removed < Modified < Added`);
two values of the same variant compare by their payloads, field by field
(for `Modified`, `old` first and then `new`). -/
def ble [DecidableEq T] (le : T → T → Bool) : Difference T → Difference T → Bool
  | .Empty, _ => true
  | _, .Empty => false
  | .Equal a, .Equal b => le a b
  | .Equal _, _ => true
  | _, .Equal _ => false
  | .Removed a, .Removed b => le a b
  | .Removed _, _ => true
  | _, .Removed _ => false
  | .Modified o n, .Modified o1 n1 => (le o o1 && !le o1 o) || (decide (o = o1) && le n n1)
  | .Modified _ _, _ => true
  | _, .Modified _ _ => false
  | .Added a, .Added b => le a b

/-- Embedding of `Difference::unstable_diff_vec`: both inputs are collected into
`HashSet`s; one `Equal` per element of the intersection, one `Removed` per
element only in `a`, one `Added` per element only in `b`.  The hash sets are
embedded as the deduplicated lists `a.dedup` / `b.dedup` (one fixed
iteration order of each set); insensitivity of `diff_vec` to this choice is
proved separately. -/
def unstable_diff_vec [DecidableEq T] (a b : List T) : List (Difference T) :=
  (a.dedup.filter (fun x => decide (x ∈ b.dedup))).map .Equal ++
    (a.dedup.filter (fun x => !decide (x ∈ b.dedup))).map .Removed ++
      (b.dedup.filter (fun x => !decide (x ∈ a.dedup))).map .Added

/-- Embedding of `Difference::diff_vec`: `unstable_diff_vec` followed by `diff.sort()`,
i.e. a stable sort by the derived total order on `Difference<T>`. -/
def diff_vec [DecidableEq T] (le : T → T → Bool) (a b : List T) : List (Difference T) :=
  (unstable_diff_vec a b).insertionSort (fun x y => ble le x y = true)

end Difference

/-- Lexicographic boolean `≤` on code-point lists, embedding the derived
`Ord` of Rust `String` (lexicographic on the UTF-8 bytes, which orders the
same way as lexicographic on code points). -/
def charsLe : List Char → List Char → Bool
  | [], _ => true
  | _ :: _, [] => false
  | c :: cs, d :: ds => decide (c < d) || (decide (c = d) && charsLe cs ds)

/-- The natural total order of Rust `String`, as a boolean comparator on the
embedded `String`. -/
def strLe (s t : String) : Bool := charsLe s.data t.data

theorem charsLe_total (s t : List Char) : charsLe s t = true ∨ charsLe t s = true := by
  induction s generalizing t with
  | nil => left; cases t <;> rfl
  | cons c cs ih =>
    cases t with
    | nil => right; rfl
    | cons d ds =>
      rcases lt_trichotomy c d with h | h | h
      · left; simp [charsLe, h]
      · subst h
        rcases ih ds with h2 | h2
        · left; simp [charsLe, h2]
        · right; simp [charsLe, h2]
      · right; simp [charsLe, h]

theorem charsLe_trans {s t u : List Char} (h1 : charsLe s t = true)
    (h2 : charsLe t u = true) : charsLe s u = true := by
  induction s generalizing t u with
  | nil => cases u with
    | nil => rfl
    | cons _ _ => rfl
  | cons c cs ih =>
    cases t with
    | nil => simp [charsLe] at h1
    | cons d ds =>
      cases u with
      | nil => simp [charsLe] at h2
      | cons e es =>
        simp only [charsLe, Bool.or_eq_true, Bool.and_eq_true, decide_eq_true_eq] at h1 h2 ⊢
        rcases h1 with h1 | ⟨h1e, h1r⟩
        · rcases h2 with h2 | ⟨h2e, h2r⟩
          · exact Or.inl (lt_trans h1 h2)
          · exact Or.inl (h2e ▸ h1)
        · rcases h2 with h2 | ⟨h2e, h2r⟩
          · exact Or.inl (h1e ▸ h2)
          · exact Or.inr ⟨h1e.trans h2e, ih h1r h2r⟩

theorem charsLe_antisymm {s t : List Char} (h1 : charsLe s t = true)
    (h2 : charsLe t s = true) : s = t := by
  induction s generalizing t with
  | nil =>
    cases t with
    | nil => rfl
    | cons _ _ => simp [charsLe] at h2
  | cons c cs ih =>
    cases t with
    | nil => simp [charsLe] at h1
    | cons d ds =>
      simp only [charsLe, Bool.or_eq_true, Bool.and_eq_true, decide_eq_true_eq] at h1 h2
      rcases h1 with h1 | ⟨h1e, h1r⟩
      · rcases h2 with h2 | ⟨h2e, _⟩
        · exact absurd h2 (lt_asymm h1)
        · exact absurd (h2e ▸ h1) (lt_irrefl d)
      · rcases h2 with h2 | ⟨_, h2r⟩
        · exact absurd (h1e ▸ h2) (lt_irrefl d)
        · exact h1e ▸ congrArg (c :: ·) (ih h1r h2r)

theorem strLe_total (s t : String) : strLe s t = true ∨ strLe t s = true :=
  charsLe_total s.data t.data

theorem strLe_trans {s t u : String} (h1 : strLe s t = true) (h2 : strLe t u = true) :
    strLe s u = true :=
  charsLe_trans h1 h2

theorem strLe_antisymm {s t : String} (h1 : strLe s t = true) (h2 : strLe t s = true) :
    s = t := by
  cases s; cases t
  exact congrArg String.mk (charsLe_antisymm h1 h2)

theorem strLe_refl (s : String) : strLe s s = true := by
  rcases strLe_total s s with h | h <;> exact h

/-- C5: the scalar operator `Difference::diff` returns `Equal(a)` when
`a == b` and `Modified { old: a, new: b }` otherwise; `Added`, `Removed` and
`Empty` are unreachable outcomes; and for `a ≠ b` the result encodes
direction: `diff b a = Modified { old: b, new: a }`. -/
theorem diff_scalar_spec {T : Type} [DecidableEq T] (a b : T) :
    (a = b → Difference.diff a b = .Equal a) ∧
    (a ≠ b → Difference.diff a b = .Modified a b ∧ Difference.diff b a = .Modified b a) ∧
    (∀ v, Difference.diff a b ≠ .Added v) ∧
    (∀ v, Difference.diff a b ≠ .Removed v) ∧
    Difference.diff a b ≠ .Empty := by
  unfold Difference.diff
  by_cases h : a = b
  · subst h
    refine ⟨fun _ => by simp, fun hne => absurd rfl hne, ?_, ?_, ?_⟩ <;> simp
  · have h2 : b ≠ a := fun hba => h hba.symm
    refine ⟨fun hab => absurd hab h, fun _ => ⟨by simp [h], by simp [h2]⟩, ?_, ?_, ?_⟩ <;>
      simp [h]

theorem diff_scalar_spec_witness :
    ((3 : Nat) = 3 → Difference.diff 3 3 = .Equal 3) ∧
    ((3 : Nat) ≠ 3 → Difference.diff 3 3 = .Modified 3 3 ∧ Difference.diff 3 3 = .Modified 3 3) ∧
    (∀ v, Difference.diff (3 : Nat) 3 ≠ .Added v) ∧
    (∀ v, Difference.diff (3 : Nat) 3 ≠ .Removed v) ∧
    Difference.diff (3 : Nat) 3 ≠ .Empty :=
  diff_scalar_spec 3 3

/-- C6: `Difference::diff_opt` on the four presence combinations:
`(None, None) ↦ Empty`, `(None, Some b) ↦ Added b`, `(Some a, None) ↦
Removed a`, `(Some a, Some b) ↦ Equal a` when `a = b` and
`Modified { old: a, new: b }` otherwise. -/
theorem diff_opt_spec {T : Type} [DecidableEq T] (a b : T) :
    Difference.diff_opt (none : Option T) none = .Empty ∧
    Difference.diff_opt none (some b) = .Added b ∧
    Difference.diff_opt (some a) none = .Removed a ∧
    (a = b → Difference.diff_opt (some a) (some b) = .Equal a) ∧
    (a ≠ b → Difference.diff_opt (some a) (some b) = .Modified a b) := by
  refine ⟨rfl, rfl, rfl, fun h => ?_, fun h => ?_⟩ <;> simp [Difference.diff_opt, h]

theorem diff_opt_spec_witness :
    Difference.diff_opt (none : Option Nat) none = .Empty ∧
    Difference.diff_opt none (some 2) = .Added 2 ∧
    Difference.diff_opt (some (1 : Nat)) none = .Removed 1 ∧
    ((1 : Nat) = 2 → Difference.diff_opt (some 1) (some 2) = .Equal 1) ∧
    ((1 : Nat) ≠ 2 → Difference.diff_opt (some 1) (some 2) = .Modified 1 2) :=
  diff_opt_spec 1 2

namespace Difference

variable {T : Type} [DecidableEq T]

theorem lex_total (le : T → T → Bool)
    (htot : ∀ a b, le a b = true ∨ le b a = true)
    (hanti : ∀ a b, le a b = true → le b a = true → a = b)
    (o n o1 n1 : T) :
    ((le o o1 && !le o1 o) || (decide (o = o1) && le n n1)) = true ∨
      ((le o1 o && !le o o1) || (decide (o1 = o) && le n1 n)) = true := by
  by_cases h1 : le o o1 = true
  · by_cases h2 : le o1 o = true
    · have he : o = o1 := hanti _ _ h1 h2
      subst he
      rcases htot n n1 with h | h
      · left; simp [h, h1]
      · right; simp [h, h1]
    · left; simp [h1, h2]
  · have h2 : le o1 o = true := (htot o o1).resolve_left h1
    right; simp [h1, h2]

theorem lex_trans (le : T → T → Bool)
    (htrans : ∀ a b c, le a b = true → le b c = true → le a c = true)
    {o n o1 n1 o2 n2 : T}
    (h1 : ((le o o1 && !le o1 o) || (decide (o = o1) && le n n1)) = true)
    (h2 : ((le o1 o2 && !le o2 o1) || (decide (o1 = o2) && le n1 n2)) = true) :
    ((le o o2 && !le o2 o) || (decide (o = o2) && le n n2)) = true := by
  simp only [Bool.or_eq_true, Bool.and_eq_true, Bool.not_eq_true',
    decide_eq_true_eq] at h1 h2 ⊢
  rcases h1 with ⟨h1l, h1n⟩ | ⟨h1e, h1r⟩
  · rcases h2 with ⟨h2l, h2n⟩ | ⟨h2e, h2r⟩
    · refine Or.inl ⟨htrans _ _ _ h1l h2l, ?_⟩
      by_contra hc
      have hc2 : le o2 o = true := by
        cases h : le o2 o
        · exact absurd h hc
        · rfl
      exact absurd (htrans _ _ _ h2l hc2) (by simp [h1n])
    · exact Or.inl ⟨h2e ▸ h1l, h2e ▸ h1n⟩
  · rcases h2 with ⟨h2l, h2n⟩ | ⟨h2e, h2r⟩
    · exact Or.inl ⟨h1e ▸ h2l, h1e ▸ h2n⟩
    · exact Or.inr ⟨h1e.trans h2e, htrans _ _ _ h1r h2r⟩

theorem lex_antisymm (le : T → T → Bool)
    (htot : ∀ a b, le a b = true ∨ le b a = true)
    (hanti : ∀ a b, le a b = true → le b a = true → a = b)
    {o n o1 n1 : T}
    (h1 : ((le o o1 && !le o1 o) || (decide (o = o1) && le n n1)) = true)
    (h2 : ((le o1 o && !le o o1) || (decide (o1 = o) && le n1 n)) = true) :
    Difference.Modified o n = Difference.Modified o1 n1 := by
  simp only [Bool.or_eq_true, Bool.and_eq_true, Bool.not_eq_true',
    decide_eq_true_eq] at h1 h2
  rcases h1 with ⟨h1l, h1n⟩ | ⟨h1e, h1r⟩
  · rcases h2 with ⟨h2l, _⟩ | ⟨h2e, _⟩
    · exact absurd h2l (by simp [h1n])
    · subst h2e
      exact absurd h1l (by simp [h1n])
  · rcases h2 with ⟨h2l, h2n⟩ | ⟨_, h2r⟩
    · subst h1e
      exact absurd h2l (by simp [h2n])
    · rw [h1e, hanti _ _ h1r h2r]

theorem ble_total (le : T → T → Bool)
    (htot : ∀ a b, le a b = true ∨ le b a = true)
    (hanti : ∀ a b, le a b = true → le b a = true → a = b) :
    ∀ x y : Difference T, ble le x y = true ∨ ble le y x = true := by
  intro x y
  cases x <;> cases y <;>
    first
      | exact Or.inl rfl
      | exact Or.inr rfl
      | exact htot _ _
      | exact lex_total le htot hanti _ _ _ _

theorem ble_trans (le : T → T → Bool)
    (htrans : ∀ a b c, le a b = true → le b c = true → le a c = true) :
    ∀ x y z : Difference T, ble le x y = true → ble le y z = true → ble le x z = true := by
  intro x y z hxy hyz
  cases x <;> cases y <;> cases z <;>
    first
      | rfl
      | exact Bool.noConfusion hxy
      | exact Bool.noConfusion hyz
      | exact htrans _ _ _ hxy hyz
      | exact lex_trans le htrans hxy hyz

theorem ble_antisymm (le : T → T → Bool)
    (htot : ∀ a b, le a b = true ∨ le b a = true)
    (hanti : ∀ a b, le a b = true → le b a = true → a = b) :
    ∀ x y : Difference T, ble le x y = true → ble le y x = true → x = y := by
  intro x y hxy hyx
  cases x <;> cases y <;>
    first
      | rfl
      | exact Bool.noConfusion hxy
      | exact Bool.noConfusion hyx
      | exact congrArg _ (hanti _ _ hxy hyx)
      | exact lex_antisymm le htot hanti hxy hyx

end Difference

theorem dedup_perm_of_toFinset_eq {T : Type} [DecidableEq T] {a b : List T}
    (h : a.toFinset = b.toFinset) : a.dedup.Perm b.dedup := by
  rw [List.perm_ext_iff_of_nodup (List.nodup_dedup a) (List.nodup_dedup b)]
  intro x
  rw [List.mem_dedup, List.mem_dedup, ← List.mem_toFinset, ← List.mem_toFinset, h]

theorem unstable_diff_vec_perm {T : Type} [DecidableEq T] {a b c d : List T}
    (ha : a.toFinset = c.toFinset) (hb : b.toFinset = d.toFinset) :
    (Difference.unstable_diff_vec a b).Perm (Difference.unstable_diff_vec c d) := by
  have pa := dedup_perm_of_toFinset_eq ha
  have pb := dedup_perm_of_toFinset_eq hb
  have hmb : ∀ x : T, (x ∈ b.dedup) ↔ (x ∈ d.dedup) := fun x => pb.mem_iff
  have hma : ∀ x : T, (x ∈ a.dedup) ↔ (x ∈ c.dedup) := fun x => pa.mem_iff
  simp only [Difference.unstable_diff_vec]
  refine List.Perm.append (List.Perm.append ?_ ?_) ?_
  · refine List.Perm.map _ ((pa.filter _).trans (List.Perm.of_eq ?_))
    exact List.filter_congr fun x _ => decide_eq_decide.mpr (hmb x)
  · refine List.Perm.map _ ((pa.filter _).trans (List.Perm.of_eq ?_))
    exact List.filter_congr fun x _ => congrArg Bool.not (decide_eq_decide.mpr (hmb x))
  · refine List.Perm.map _ ((pb.filter _).trans (List.Perm.of_eq ?_))
    exact List.filter_congr fun x _ => congrArg Bool.not (decide_eq_decide.mpr (hma x))

theorem diff_vec_perm_unstable {T : Type} [DecidableEq T] (le : T → T → Bool)
    (a b : List T) :
    (Difference.diff_vec le a b).Perm (Difference.unstable_diff_vec a b) :=
  List.perm_insertionSort _ _

theorem diff_vec_sorted {T : Type} [DecidableEq T] (le : T → T → Bool)
    (htot : ∀ a b, le a b = true ∨ le b a = true)
    (htrans : ∀ a b c, le a b = true → le b c = true → le a c = true)
    (hanti : ∀ a b, le a b = true → le b a = true → a = b)
    (a b : List T) :
    List.Sorted (fun x y => Difference.ble le x y = true) (Difference.diff_vec le a b) := by
  haveI : IsTotal (Difference T) (fun x y => Difference.ble le x y = true) :=
    ⟨Difference.ble_total le htot hanti⟩
  haveI : IsTrans (Difference T) (fun x y => Difference.ble le x y = true) :=
    ⟨fun x y z => Difference.ble_trans le htrans x y z⟩
  exact List.sorted_insertionSort _ _

theorem diff_vec_deterministic {T : Type} [DecidableEq T] (le : T → T → Bool)
    (htot : ∀ a b, le a b = true ∨ le b a = true)
    (htrans : ∀ a b c, le a b = true → le b c = true → le a c = true)
    (hanti : ∀ a b, le a b = true → le b a = true → a = b)
    {a b c d : List T} (ha : a.toFinset = c.toFinset) (hb : b.toFinset = d.toFinset) :
    Difference.diff_vec le a b = Difference.diff_vec le c d := by
  haveI : IsAntisymm (Difference T) (fun x y => Difference.ble le x y = true) :=
    ⟨fun x y => Difference.ble_antisymm le htot hanti x y⟩
  refine List.eq_of_perm_of_sorted ?_ (diff_vec_sorted le htot htrans hanti a b)
    (diff_vec_sorted le htot htrans hanti c d)
  exact ((diff_vec_perm_unstable le a b).trans (unstable_diff_vec_perm ha hb)).trans
    (diff_vec_perm_unstable le c d).symm

/-- The natural order of `Nat`, as a boolean comparator (used to instantiate
the generic set-diff theorems on concrete inputs). -/
def natLe (a b : Nat) : Bool := decide (a ≤ b)

theorem natLe_total : ∀ a b : Nat, natLe a b = true ∨ natLe b a = true := by
  intro a b
  rcases Nat.le_total a b with h | h
  · left; simpa [natLe]
  · right; simpa [natLe]

theorem natLe_trans : ∀ a b c : Nat, natLe a b = true → natLe b c = true → natLe a c = true := by
  intro a b c h1 h2
  simp only [natLe, decide_eq_true_eq] at h1 h2 ⊢
  omega

theorem natLe_antisymm : ∀ a b : Nat, natLe a b = true → natLe b a = true → a = b := by
  intro a b h1 h2
  simp only [natLe, decide_eq_true_eq] at h1 h2
  omega

/-- C1: for every pair of input sequences, the result of
`Difference::diff_vec` is sorted by the canonical total order on
`Difference` values (variants ordered `Empty < Equal < Removed < Modified <
Added`, ties among same-variant instances broken by the natural order of the
wrapped values, for `Modified` comparing `old` then `new`), and the output
is the same for any two inputs denoting the same sets — i.e. it is
deterministic regardless of input ordering, input duplication, or set
iteration order.  The comparator `le` is any lawful embedding of `T: Ord`
(total, transitive, antisymmetric). -/
theorem diff_vec_canonically_sorted {T : Type} [DecidableEq T] (le : T → T → Bool)
    (htot : ∀ a b, le a b = true ∨ le b a = true)
    (htrans : ∀ a b c, le a b = true → le b c = true → le a c = true)
    (hanti : ∀ a b, le a b = true → le b a = true → a = b)
    (a b c d : List T) (ha : a.toFinset = c.toFinset) (hb : b.toFinset = d.toFinset) :
    List.Sorted (fun x y => Difference.ble le x y = true) (Difference.diff_vec le a b) ∧
      Difference.diff_vec le a b = Difference.diff_vec le c d :=
  ⟨diff_vec_sorted le htot htrans hanti a b,
    diff_vec_deterministic le htot htrans hanti ha hb⟩

theorem diff_vec_canonically_sorted_witness :
    List.Sorted (fun x y => Difference.ble natLe x y = true)
      (Difference.diff_vec natLe [1, 2, 2] [2, 3]) ∧
      Difference.diff_vec natLe [1, 2, 2] [2, 3] = Difference.diff_vec natLe [2, 1] [3, 3, 2] :=
  diff_vec_canonically_sorted natLe natLe_total natLe_trans natLe_antisymm
    [1, 2, 2] [2, 3] [2, 1] [3, 3, 2] (by decide) (by decide)

/-- Whether a `Difference` value wraps the element `x` in one of its payload
positions. -/
def Difference.mentions {T : Type} [DecidableEq T] (x : T) : Difference T → Bool
  | .Empty => false
  | .Equal v => decide (v = x)
  | .Removed v => decide (v = x)
  | .Modified o n => decide (o = x) || decide (n = x)
  | .Added v => decide (v = x)

theorem countP_eq_decide_mem {T : Type} [DecidableEq T] (x : T) (l : List T)
    (hl : l.Nodup) : List.countP (fun v => decide (v = x)) l = if x ∈ l then 1 else 0 := by
  induction l with
  | nil => simp
  | cons a l ih =>
    have hl2 := List.nodup_cons.mp hl
    rw [List.countP_cons, ih hl2.2]
    by_cases hax : a = x
    · subst hax
      simp [List.mem_cons, hl2.1]
    · have hxa : ¬x = a := fun h => hax h.symm
      simp [List.mem_cons, hax, hxa]

theorem length_filter_add_length_filter_not {α : Type} (p : α → Bool) (l : List α) :
    (l.filter p).length + (l.filter (fun v => !p v)).length = l.length := by
  induction l with
  | nil => rfl
  | cons a l ih => cases h : p a <;> simp [List.filter_cons, h] <;> omega

theorem toFinset_dedup_list {T : Type} [DecidableEq T] (l : List T) :
    l.dedup.toFinset = l.toFinset := by
  ext x
  simp [List.mem_toFinset, List.mem_dedup]

theorem unstable_diff_vec_length {T : Type} [DecidableEq T] (a b : List T) :
    (Difference.unstable_diff_vec a b).length = (a.toFinset ∪ b.toFinset).card := by
  simp only [Difference.unstable_diff_vec, List.length_append, List.length_map]
  have hA : (a.dedup.filter (fun v => decide (v ∈ b.dedup))).length
      + (a.dedup.filter (fun v => !decide (v ∈ b.dedup))).length = a.dedup.length :=
    length_filter_add_length_filter_not _ _
  have hA2 : a.dedup.length = a.toFinset.card := (List.card_toFinset a).symm
  have hB : (b.dedup.filter (fun v => !decide (v ∈ a.dedup))).length
      = (b.toFinset \ a.toFinset).card := by
    have hn : (b.dedup.filter (fun v => !decide (v ∈ a.dedup))).Nodup :=
      (List.nodup_dedup b).filter _
    calc (b.dedup.filter (fun v => !decide (v ∈ a.dedup))).length
        = (b.dedup.filter (fun v => !decide (v ∈ a.dedup))).toFinset.card := by
          rw [List.card_toFinset, hn.dedup]
      _ = (b.toFinset.filter (fun v => (!decide (v ∈ a.dedup)) = true)).card := by
          rw [List.toFinset_filter, toFinset_dedup_list]
      _ = (b.toFinset \ a.toFinset).card := by
          rw [Finset.sdiff_eq_filter]
          congr 1
          apply Finset.filter_congr
          intro x _
          simp [List.mem_dedup, List.mem_toFinset]
  have hU : (b.toFinset \ a.toFinset).card + a.toFinset.card
      = (a.toFinset ∪ b.toFinset).card := by
    rw [Finset.card_sdiff_add_card, Finset.union_comm]
  omega

theorem countP_mentions_unstable {T : Type} [DecidableEq T] (x : T) (a b : List T)
    (hx : x ∈ a ∨ x ∈ b) :
    List.countP (fun e => Difference.mentions x e) (Difference.unstable_diff_vec a b) = 1 := by
  simp only [Difference.unstable_diff_vec, List.countP_append, List.countP_map]
  have h1 : List.countP ((fun e => Difference.mentions x e) ∘ Difference.Equal)
      (a.dedup.filter (fun v => decide (v ∈ b.dedup)))
      = if x ∈ a.dedup.filter (fun v => decide (v ∈ b.dedup)) then 1 else 0 :=
    countP_eq_decide_mem x _ ((List.nodup_dedup a).filter _)
  have h2 : List.countP ((fun e => Difference.mentions x e) ∘ Difference.Removed)
      (a.dedup.filter (fun v => !decide (v ∈ b.dedup)))
      = if x ∈ a.dedup.filter (fun v => !decide (v ∈ b.dedup)) then 1 else 0 :=
    countP_eq_decide_mem x _ ((List.nodup_dedup a).filter _)
  have h3 : List.countP ((fun e => Difference.mentions x e) ∘ Difference.Added)
      (b.dedup.filter (fun v => !decide (v ∈ a.dedup)))
      = if x ∈ b.dedup.filter (fun v => !decide (v ∈ a.dedup)) then 1 else 0 :=
    countP_eq_decide_mem x _ ((List.nodup_dedup b).filter _)
  rw [h1, h2, h3]
  by_cases hxa : x ∈ a <;> by_cases hxb : x ∈ b <;>
    simp [List.mem_filter, List.mem_dedup, hxa, hxb] <;> tauto

theorem count_equal_unstable {T : Type} [DecidableEq T] (x : T) (a b : List T)
    (hxa : x ∈ a) (hxb : x ∈ b) :
    List.count (Difference.Equal x) (Difference.unstable_diff_vec a b) = 1 := by
  simp only [Difference.unstable_diff_vec, List.count_append]
  have hinj : Function.Injective (Difference.Equal : T → Difference T) := by
    intro u v h
    injection h
  have h1 : List.count (Difference.Equal x)
      ((a.dedup.filter (fun v => decide (v ∈ b.dedup))).map Difference.Equal)
      = List.count x (a.dedup.filter (fun v => decide (v ∈ b.dedup))) :=
    List.count_map_of_injective _ _ hinj x
  have h2 : List.count (Difference.Equal x)
      ((a.dedup.filter (fun v => !decide (v ∈ b.dedup))).map Difference.Removed) = 0 := by
    rw [List.count_eq_zero]
    intro hmem
    rcases List.mem_map.mp hmem with ⟨v, _, hv⟩
    exact Difference.noConfusion hv
  have h3 : List.count (Difference.Equal x)
      ((b.dedup.filter (fun v => !decide (v ∈ a.dedup))).map Difference.Added) = 0 := by
    rw [List.count_eq_zero]
    intro hmem
    rcases List.mem_map.mp hmem with ⟨v, _, hv⟩
    exact Difference.noConfusion hv
  rw [h1, h2, h3]
  have hmem : x ∈ a.dedup.filter (fun v => decide (v ∈ b.dedup)) := by
    rw [List.mem_filter]
    exact ⟨List.mem_dedup.mpr hxa, by simp [List.mem_dedup, hxb]⟩
  rw [List.count_eq_one_of_mem ((List.nodup_dedup a).filter _) hmem]

/-- C7: `diff_set` is order- and duplicate-insensitive — replacing either
input by any permutation or duplication of its elements (any list denoting
the same set) leaves the result unchanged; the result length equals the
cardinality of the set union of the two inputs; every element of the union
appears in exactly one entry; and every element of the intersection appears
as exactly one `Equal` entry. -/
theorem diff_set_insensitive {T : Type} [DecidableEq T] (le : T → T → Bool)
    (htot : ∀ a b, le a b = true ∨ le b a = true)
    (htrans : ∀ a b c, le a b = true → le b c = true → le a c = true)
    (hanti : ∀ a b, le a b = true → le b a = true → a = b)
    (a b c d : List T) (ha : a.toFinset = c.toFinset) (hb : b.toFinset = d.toFinset) :
    Difference.diff_vec le a b = Difference.diff_vec le c d ∧
      (Difference.diff_vec le a b).length = (a.toFinset ∪ b.toFinset).card ∧
      (∀ x, x ∈ a.toFinset ∪ b.toFinset →
        List.countP (fun e => Difference.mentions x e) (Difference.diff_vec le a b) = 1) ∧
      (∀ x, x ∈ a.toFinset ∩ b.toFinset →
        List.count (Difference.Equal x) (Difference.diff_vec le a b) = 1) := by
  have hperm := diff_vec_perm_unstable le a b
  refine ⟨diff_vec_deterministic le htot htrans hanti ha hb, ?_, ?_, ?_⟩
  · rw [hperm.length_eq, unstable_diff_vec_length]
  · intro x hx
    rw [Finset.mem_union, List.mem_toFinset, List.mem_toFinset] at hx
    rw [hperm.countP_eq, countP_mentions_unstable x a b hx]
  · intro x hx
    rw [Finset.mem_inter, List.mem_toFinset, List.mem_toFinset] at hx
    rw [hperm.count_eq, count_equal_unstable x a b hx.1 hx.2]

theorem diff_set_insensitive_witness :
    Difference.diff_vec natLe [1, 2, 2] [2, 3] = Difference.diff_vec natLe [2, 1] [3, 3, 2] ∧
      (Difference.diff_vec natLe [1, 2, 2] [2, 3]).length
        = (([1, 2, 2] : List Nat).toFinset ∪ ([2, 3] : List Nat).toFinset).card ∧
      (∀ x, x ∈ ([1, 2, 2] : List Nat).toFinset ∪ ([2, 3] : List Nat).toFinset →
        List.countP (fun e => Difference.mentions x e)
          (Difference.diff_vec natLe [1, 2, 2] [2, 3]) = 1) ∧
      (∀ x, x ∈ ([1, 2, 2] : List Nat).toFinset ∩ ([2, 3] : List Nat).toFinset →
        List.count (Difference.Equal x) (Difference.diff_vec natLe [1, 2, 2] [2, 3]) = 1) :=
  diff_set_insensitive natLe natLe_total natLe_trans natLe_antisymm
    [1, 2, 2] [2, 3] [2, 1] [3, 3, 2] (by decide) (by decide)

/-- Embedding of `struct Package` from `src/lib.rs`. -/
structure Package where
  name : String
  version : String
  source : Option String
  checksum : Option String
  dependencies : List String
deriving DecidableEq, Repr

/-- Embedding of `struct PackageDiff` from `src/lib.rs`. -/
structure PackageDiff where
  name : String
  version : Difference String
  source : Difference String
  checksum : Difference String
  dependencies : List (Difference String)
deriving DecidableEq, Repr

namespace PackageDiff

/-- Embedding of `PackageDiff::diff`: panics (`none`) when `a.name != b.name`; otherwise
composes the scalar diff of the versions, the optional diffs of source and
checksum, and the set diff of the dependency names. -/
def diff (a b : Package) : Option PackageDiff :=
  if a.name ≠ b.name then none
  else some
    { name := a.name
      version := Difference.diff a.version b.version
      source := Difference.diff_opt a.source b.source
      checksum := Difference.diff_opt a.checksum b.checksum
      dependencies := Difference.diff_vec strLe a.dependencies b.dependencies }

/-- Embedding of `PackageDiff::added`: one-sided diff wrapping every present field in
`Added` (`Empty` for absent optional fields). -/
def added (p : Package) : PackageDiff :=
  { name := p.name
    version := Difference.Added p.version
    source := p.source.elim Difference.Empty Difference.Added
    checksum := p.checksum.elim Difference.Empty Difference.Added
    dependencies := p.dependencies.map Difference.Added }

/-- Embedding of `PackageDiff::removed`: one-sided diff wrapping every present field in
`Removed` (`Empty` for absent optional fields). -/
def removed (p : Package) : PackageDiff :=
  { name := p.name
    version := Difference.Removed p.version
    source := p.source.elim Difference.Empty Difference.Removed
    checksum := p.checksum.elim Difference.Empty Difference.Removed
    dependencies := p.dependencies.map Difference.Removed }

/-- Embedding of `PackageDiff::is_equal_or_empty`: version equal, source and checksum
equal-or-empty, and every dependency difference equal-or-empty. -/
def is_equal_or_empty (d : PackageDiff) : Bool :=
  d.version.is_equal &&
    (d.source.is_equal || d.source.is_empty) &&
      (d.checksum.is_equal || d.checksum.is_empty) &&
        d.dependencies.all (fun e => e.is_equal || e.is_empty)

end PackageDiff

/-- Embedding of `struct CargoLock` from `src/lib.rs` (the `u8` format
version is embedded as `Nat`). -/
structure CargoLock where
  version : Nat
  package : List Package
deriving DecidableEq, Repr

/-- Embedding of `struct CargoLockDiff` from `src/lib.rs`. -/
structure CargoLockDiff where
  version : Difference Nat
  package : List PackageDiff
deriving DecidableEq, Repr

/-- One insertion into the association list embedding
`HashMap<String, Package>`: replace the binding when the key is present,
append it otherwise (the semantics of `HashMap::insert`). -/
def pkgInsert : List (String × Package) → Package → List (String × Package)
  | [], p => [(p.name, p)]
  | kv :: m, p => if kv.1 = p.name then (kv.1, p) :: m else kv :: pkgInsert m p

/-- Embedding of `HashMap::from_iter(packages.map(|p| (p.name.clone(), p)))`:
fold the record list through `pkgInsert`, so duplicate names collapse to the
last-seen record.  The association list fixes one iteration order of the
map; independence of the final sorted output from this choice is proved via
`specDifference`. -/
def pkgMap (l : List Package) : List (String × Package) := l.foldl pkgInsert []

/-- Key lookup in the association list embedding of the `HashMap`. -/
def alookup (m : List (String × Package)) (n : String) : Option Package :=
  (m.find? (fun kv => decide (kv.1 = n))).map (fun kv => kv.2)

namespace CargoLockDiff

/-- Embedding of `CargoLockDiff::difference` from `src/lib.rs`: scalar diff of the format
versions; build the two keyed maps; for every entry of map `a` emit
`PackageDiff::diff` against the matching entry of map `b` when present (this
is the fallible call — it panics only on a name mismatch, which cannot occur
here) and `PackageDiff::removed` otherwise; for every entry of map `b` whose
key is absent from map `a` emit `PackageDiff::added`; finally sort the
result by package name (`package.sort()` uses the `Ord` on `PackageDiff`,
which compares names only). -/
def difference (a b : CargoLock) : Option CargoLockDiff := do
  let ma := pkgMap a.package
  let mb := pkgMap b.package
  let common ← ma.mapM (fun kv =>
    match alookup mb kv.1 with
    | some q => PackageDiff.diff kv.2 q
    | none => some (PackageDiff.removed kv.2))
  let extra := mb.filterMap (fun kv =>
    if ma.any (fun kv2 => decide (kv2.1 = kv.1)) then none
    else some (PackageDiff.added kv.2))
  some
    { version := Difference.diff a.version b.version
      package := (common ++ extra).insertionSort
        (fun p q => strLe p.name q.name = true) }

/-- Embedding of `CargoLockDiff::pretty_print` from `src/lib.rs`, modelled only up to
panic/termination (`none` = panic; the actual text goes to stdout and is
external rendering).  `pretty_print_version` hits `unreachable!` on any
variant other than `Equal`/`Modified`; afterwards the slice
`self.package[..self.package.len() - 1]` and the index
`self.package[self.package.len() - 1]` panic when the package list is empty
(`len() - 1` underflows `usize`). -/
def pretty_print (d : CargoLockDiff) : Option Unit := do
  match d.version with
  | Difference.Equal _ => some ()
  | Difference.Modified _ _ => some ()
  | _ => none
  if d.package.isEmpty then none else some ()

end CargoLockDiff

/-- C4: `PackageDiff::diff` has the precondition `a.name == b.name`; on
records with different names the call aborts (modelled as `none`), and under
the precondition the computation always succeeds — the identity-mismatch
abort is the only failure of the record diff composer. -/
theorem record_diff_precondition (a b : Package) :
    (a.name ≠ b.name → PackageDiff.diff a b = none) ∧
      (a.name = b.name → (PackageDiff.diff a b).isSome = true) := by
  constructor <;> intro h <;> simp [PackageDiff.diff, h]

theorem record_diff_precondition_witness :
    PackageDiff.diff
        { name := "alpha", version := "1", source := none, checksum := none, dependencies := [] }
        { name := "beta", version := "1", source := none, checksum := none, dependencies := [] }
        = none ∧
      (PackageDiff.diff
        { name := "alpha", version := "1", source := none, checksum := none, dependencies := [] }
        { name := "alpha", version := "2", source := none, checksum := none,
          dependencies := [] }).isSome = true :=
  ⟨(record_diff_precondition _ _).1 (by decide),
    (record_diff_precondition
      { name := "alpha", version := "1", source := none, checksum := none, dependencies := [] }
      { name := "alpha", version := "2", source := none, checksum := none,
        dependencies := [] }).2 rfl⟩

/-- C8: the one-sided constructor `PackageDiff::added` wraps the version in
`Added`, wraps present optional fields in `Added` and absent ones in
`Empty`, and wraps every dependency name in `Added`; `PackageDiff::removed`
is exactly symmetric with `Removed`. -/
theorem one_sided_diff_spec (r : Package) :
    (PackageDiff.added r).name = r.name ∧
      (PackageDiff.added r).version = Difference.Added r.version ∧
      (∀ v, r.source = some v → (PackageDiff.added r).source = Difference.Added v) ∧
      (r.source = none → (PackageDiff.added r).source = Difference.Empty) ∧
      (∀ v, r.checksum = some v → (PackageDiff.added r).checksum = Difference.Added v) ∧
      (r.checksum = none → (PackageDiff.added r).checksum = Difference.Empty) ∧
      (PackageDiff.added r).dependencies = r.dependencies.map Difference.Added ∧
      (PackageDiff.removed r).name = r.name ∧
      (PackageDiff.removed r).version = Difference.Removed r.version ∧
      (∀ v, r.source = some v → (PackageDiff.removed r).source = Difference.Removed v) ∧
      (r.source = none → (PackageDiff.removed r).source = Difference.Empty) ∧
      (∀ v, r.checksum = some v → (PackageDiff.removed r).checksum = Difference.Removed v) ∧
      (r.checksum = none → (PackageDiff.removed r).checksum = Difference.Empty) ∧
      (PackageDiff.removed r).dependencies = r.dependencies.map Difference.Removed := by
  refine ⟨rfl, rfl, ?_, ?_, ?_, ?_, rfl, rfl, rfl, ?_, ?_, ?_, ?_, rfl⟩ <;>
    first
      | (intro v h; simp [PackageDiff.added, PackageDiff.removed, h])
      | (intro h; simp [PackageDiff.added, PackageDiff.removed, h])

theorem one_sided_diff_spec_witness :
    (PackageDiff.added
        { name := "p", version := "1", source := some "s", checksum := none,
          dependencies := ["d1", "d2"] }).name = "p" ∧
      (PackageDiff.added
        { name := "p", version := "1", source := some "s", checksum := none,
          dependencies := ["d1", "d2"] }).source = Difference.Added "s" ∧
      (PackageDiff.added
        { name := "p", version := "1", source := some "s", checksum := none,
          dependencies := ["d1", "d2"] }).checksum = Difference.Empty ∧
      (PackageDiff.removed
        { name := "p", version := "1", source := some "s", checksum := none,
          dependencies := ["d1", "d2"] }).checksum = Difference.Empty := by
  have h := one_sided_diff_spec
    { name := "p", version := "1", source := some "s", checksum := none,
      dependencies := ["d1", "d2"] }
  exact ⟨h.1, h.2.2.1 "s" rfl, h.2.2.2.2.2.1 rfl, h.2.2.2.2.2.2.2.2.2.2.2.2.1 rfl⟩


theorem mem_diff_vec_self_is_equal {T : Type} [DecidableEq T] (le : T → T → Bool)
    (l : List T) (e : Difference T) (he : e ∈ Difference.diff_vec le l l) :
    e.is_equal = true := by
  rw [Difference.diff_vec, List.mem_insertionSort] at he
  have hnil : l.dedup.filter (fun x => !decide (x ∈ l.dedup)) = [] := by
    rw [List.filter_eq_nil_iff]
    intro x hx
    simp [hx]
  rw [Difference.unstable_diff_vec, hnil] at he
  simp only [List.map_nil, List.append_nil] at he
  obtain ⟨v, _, hv⟩ := List.mem_map.mp he
  rw [← hv]
  rfl

/-- C9: `Difference::diff a a = Equal a` for every value, and the self-diff
of any record succeeds and yields a `PackageDiff` whose every field is
`Equal` or `Empty`, so `is_equal_or_empty()` returns `true` on it. -/
theorem self_diff_equal {T : Type} [DecidableEq T] (a : T) (r : Package) :
    Difference.diff a a = Difference.Equal a ∧
      ∃ d, PackageDiff.diff r r = some d ∧ d.is_equal_or_empty = true := by
  refine ⟨by simp [Difference.diff], ?_⟩
  have hdiff : PackageDiff.diff r r = some
      { name := r.name
        version := Difference.diff r.version r.version
        source := Difference.diff_opt r.source r.source
        checksum := Difference.diff_opt r.checksum r.checksum
        dependencies := Difference.diff_vec strLe r.dependencies r.dependencies } := by
    simp [PackageDiff.diff]
  refine ⟨_, hdiff, ?_⟩
  rw [PackageDiff.is_equal_or_empty]
  have hv : (Difference.diff r.version r.version).is_equal = true := by
    simp [Difference.diff, Difference.is_equal]
  have hs : ∀ o : Option String,
      ((Difference.diff_opt o o).is_equal || (Difference.diff_opt o o).is_empty) = true := by
    intro o
    cases o <;> simp [Difference.diff_opt, Difference.is_equal, Difference.is_empty]
  have hd : (Difference.diff_vec strLe r.dependencies r.dependencies).all
      (fun e => e.is_equal || e.is_empty) = true := by
    rw [List.all_eq_true]
    intro e he
    rw [mem_diff_vec_self_is_equal strLe r.dependencies e he]
    rfl
  simp [hv, hs, hd]

/-- Last-wins lookup in a record list: the last record with the given name,
if any.  This is the lookup semantics of the keyed map built by
`HashMap::from_iter` over `(name, package)` pairs, where duplicate names
collapse to the last-seen record. -/
def lookupLast : List Package → String → Option Package
  | [], _ => none
  | p :: l, n =>
    match lookupLast l n with
    | some q => some q
    | none => if p.name = n then some p else none

theorem alookup_cons (kv : String × Package) (m : List (String × Package)) (n : String) :
    alookup (kv :: m) n = if kv.1 = n then some kv.2 else alookup m n := by
  by_cases h : kv.1 = n
  · rw [alookup, List.find?_cons_of_pos _ (by simp [h]), if_pos h]
    rfl
  · rw [alookup, List.find?_cons_of_neg _ (by simp [h]), if_neg h]
    rfl

theorem alookup_pkgInsert (m : List (String × Package)) (p : Package) (n : String) :
    alookup (pkgInsert m p) n = if n = p.name then some p else alookup m n := by
  induction m with
  | nil =>
    rw [pkgInsert, alookup_cons]
    by_cases h : n = p.name
    · simp [h]
    · have h2 : ¬p.name = n := fun hh => h hh.symm
      simp [h, h2]
  | cons kv m ih =>
    rw [pkgInsert]
    by_cases h : kv.1 = p.name
    · rw [if_pos h, alookup_cons, alookup_cons]
      by_cases h2 : n = p.name
      · simp [h, h2]
      · have h3 : ¬kv.1 = n := fun hh => h2 ((hh.symm.trans h))
        simp [h2, h3]
    · rw [if_neg h, alookup_cons, ih, alookup_cons]
      by_cases h2 : kv.1 = n
      · have h3 : ¬n = p.name := fun hh => h (h2.trans hh)
        simp [h2, h3]
      · simp [h2]

theorem alookup_foldl_pkgInsert (l : List Package) (m : List (String × Package)) (n : String) :
    alookup (l.foldl pkgInsert m) n = (lookupLast l n).or (alookup m n) := by
  induction l generalizing m with
  | nil => simp [lookupLast]
  | cons p l ih =>
    rw [List.foldl_cons, ih, alookup_pkgInsert, lookupLast]
    cases hl : lookupLast l n with
    | some q => simp
    | none =>
      by_cases h : p.name = n
      · subst h
        simp
      · have h2 : ¬n = p.name := fun hh => h hh.symm
        simp [h, h2]

theorem alookup_pkgMap (l : List Package) (n : String) :
    alookup (pkgMap l) n = lookupLast l n := by
  rw [pkgMap, alookup_foldl_pkgInsert]
  show (lookupLast l n).or none = lookupLast l n
  rw [Option.or_none]

theorem keys_pkgInsert (m : List (String × Package)) (p : Package) :
    (pkgInsert m p).map Prod.fst =
      if p.name ∈ m.map Prod.fst then m.map Prod.fst
      else m.map Prod.fst ++ [p.name] := by
  induction m with
  | nil => simp [pkgInsert]
  | cons kv m ih =>
    rw [pkgInsert]
    by_cases h : kv.1 = p.name
    · rw [if_pos h]
      simp [List.map_cons, List.mem_cons, h.symm]
    · rw [if_neg h]
      have h2 : ¬p.name = kv.1 := fun hh => h hh.symm
      by_cases h3 : p.name ∈ m.map Prod.fst
      · simp [List.map_cons, List.mem_cons, h2, h3, ih]
      · simp [List.map_cons, List.mem_cons, h2, h3, ih]

theorem keys_pkgMap_nodup (l : List Package) : ((pkgMap l).map Prod.fst).Nodup := by
  suffices h : ∀ m : List (String × Package), (m.map Prod.fst).Nodup →
      ((l.foldl pkgInsert m).map Prod.fst).Nodup by
    exact h [] (by simp)
  induction l with
  | nil => intro m hm; simpa using hm
  | cons p l ih =>
    intro m hm
    rw [List.foldl_cons]
    apply ih
    rw [keys_pkgInsert]
    by_cases h : p.name ∈ m.map Prod.fst
    · simpa [h] using hm
    · rw [if_neg h]
      refine hm.append (List.nodup_singleton _) ?_
      intro x hx hx2
      rw [List.mem_singleton] at hx2
      exact h (hx2 ▸ hx)

theorem pkgInsert_snd_name (m : List (String × Package)) (p : Package)
    (hm : ∀ kv ∈ m, (kv : String × Package).2.name = kv.1) :
    ∀ kv ∈ pkgInsert m p, kv.2.name = kv.1 := by
  induction m with
  | nil =>
    intro kv hkv
    rw [pkgInsert, List.mem_singleton] at hkv
    subst hkv
    rfl
  | cons kv0 m ih =>
    intro kv hkv
    rw [pkgInsert] at hkv
    by_cases h : kv0.1 = p.name
    · rw [if_pos h] at hkv
      rcases List.mem_cons.mp hkv with h1 | h1
      · subst h1
        exact h.symm
      · exact hm kv (List.mem_cons_of_mem _ h1)
    · rw [if_neg h] at hkv
      rcases List.mem_cons.mp hkv with h1 | h1
      · subst h1
        exact hm kv (List.mem_cons_self _ _)
      · exact ih (fun kv2 hkv2 => hm kv2 (List.mem_cons_of_mem _ hkv2)) kv h1

theorem pkgMap_snd_name (l : List Package) :
    ∀ kv ∈ pkgMap l, (kv : String × Package).2.name = kv.1 := by
  suffices h : ∀ m : List (String × Package), (∀ kv ∈ m, (kv : String × Package).2.name = kv.1) →
      ∀ kv ∈ l.foldl pkgInsert m, kv.2.name = kv.1 by
    exact h [] (by simp)
  induction l with
  | nil => intro m hm; simpa using hm
  | cons p l ih =>
    intro m hm
    rw [List.foldl_cons]
    exact ih _ (pkgInsert_snd_name m p hm)

theorem alookup_mem_of_nodup (m : List (String × Package))
    (hn : (m.map Prod.fst).Nodup) (kv : String × Package) (hkv : kv ∈ m) :
    alookup m kv.1 = some kv.2 := by
  induction m with
  | nil => cases hkv
  | cons kv0 m ih =>
    rw [alookup_cons]
    rw [List.map_cons, List.nodup_cons] at hn
    rcases List.mem_cons.mp hkv with h | h
    · subst h
      simp
    · have hne : ¬kv0.1 = kv.1 := by
        intro he
        exact hn.1 (he ▸ List.mem_map.mpr ⟨kv, h, rfl⟩)
      rw [if_neg hne]
      exact ih hn.2 h

theorem alookup_eq_none_iff (m : List (String × Package)) (n : String) :
    alookup m n = none ↔ n ∉ m.map Prod.fst := by
  rw [alookup, Option.map_eq_none', List.find?_eq_none]
  constructor
  · intro h hc
    rcases List.mem_map.mp hc with ⟨kv, hkv, he⟩
    exact absurd (by simpa using he) (h kv hkv)
  · intro h kv hkv
    simp only [decide_eq_true_eq]
    intro he
    exact h (List.mem_map.mpr ⟨kv, hkv, he⟩)

theorem lookupLast_eq_none_iff (l : List Package) (n : String) :
    lookupLast l n = none ↔ n ∉ l.map Package.name := by
  induction l with
  | nil => simp [lookupLast]
  | cons p l ih =>
    rw [lookupLast]
    cases hl : lookupLast l n with
    | some q =>
      have hmem : n ∈ l.map Package.name := by
        by_contra hc
        rw [← ih] at hc
        rw [hl] at hc
        cases hc
      simp [List.mem_cons, hmem]
    | none =>
      rw [hl] at ih
      by_cases h : p.name = n
      · simp [h]
      · have h2 : ¬n = p.name := fun hh => h hh.symm
        simp [h, h2, ih.mp rfl]

theorem lookupLast_name (l : List Package) (n : String) (q : Package)
    (h : lookupLast l n = some q) : q.name = n := by
  induction l with
  | nil => cases h
  | cons p l ih =>
    rw [lookupLast] at h
    cases hl : lookupLast l n with
    | some r =>
      rw [hl] at h
      cases h
      exact ih hl
    | none =>
      rw [hl] at h
      by_cases hp : p.name = n
      · rw [if_pos hp] at h
        cases h
        exact hp
      · rw [if_neg hp] at h
        cases h

theorem mem_keys_pkgMap (l : List Package) (n : String) :
    n ∈ (pkgMap l).map Prod.fst ↔ n ∈ l.map Package.name := by
  have h1 := alookup_eq_none_iff (pkgMap l) n
  have h2 := lookupLast_eq_none_iff l n
  rw [alookup_pkgMap] at h1
  exact not_iff_not.mp (h1.symm.trans h2)

/-- The sorted list of all record names occurring in either snapshot (each
name once). -/
def sortedNames (a b : CargoLock) : List String :=
  ((a.package.map Package.name ++ b.package.map Package.name).dedup).insertionSort
    (fun s t => strLe s t = true)

/-- Specification-side description of one entry of the aggregate diff,
following §4.4 of the spec: for a name present in both snapshots emit
`diff(recordA, recordB)`, for a name present only in snapshot `a` emit
`removed(recordA)`, for a name present only in snapshot `b` emit
`added(recordB)`; duplicates within one snapshot collapse to the last-seen
record (`lookupLast`). -/
def specRecordDiff (a b : CargoLock) (n : String) : Option PackageDiff :=
  match lookupLast a.package n, lookupLast b.package n with
  | some pa, some pb => PackageDiff.diff pa pb
  | some pa, none => some (PackageDiff.removed pa)
  | none, some pb => some (PackageDiff.added pb)
  | none, none => none

/-- Specification-side description of the Aggregate Diff Builder, following
§4.4 of the spec: the scalar diff of the two format versions, together with
one `RecordDiff` per name in the union of the two snapshots' name sets,
listed in sorted name order.  This definition mentions no map structure at
all, so it is manifestly independent of map iteration order; `C3` proves
that `CargoLockDiff::difference` computes exactly this. -/
def specDifference (a b : CargoLock) : CargoLockDiff :=
  { version := Difference.diff a.version b.version
    package := (sortedNames a b).filterMap (specRecordDiff a b) }

theorem mapM_option_eq_map {α β : Type} (f : α → Option β) (g : α → β) (l : List α)
    (h : ∀ x ∈ l, f x = some (g x)) : l.mapM f = some (l.map g) := by
  induction l with
  | nil => rfl
  | cons x l ih =>
    rw [List.mapM_cons, h x (List.mem_cons_self x l),
      ih (fun y hy => h y (List.mem_cons_of_mem x hy))]
    rfl

theorem filterMap_eq_map_of_some {α β : Type} (f : α → Option β) (g : α → β) (l : List α)
    (h : ∀ x ∈ l, f x = some (g x)) : l.filterMap f = l.map g := by
  induction l with
  | nil => rfl
  | cons x l ih =>
    rw [List.filterMap_cons, h x (List.mem_cons_self x l),
      ih (fun y hy => h y (List.mem_cons_of_mem x hy)), List.map_cons]

theorem filterMap_congr_mem {α β : Type} (f g : α → Option β) (l : List α)
    (h : ∀ x ∈ l, f x = g x) : l.filterMap f = l.filterMap g := by
  induction l with
  | nil => rfl
  | cons x l ih =>
    rw [List.filterMap_cons, List.filterMap_cons, h x (List.mem_cons_self x l),
      ih (fun y hy => h y (List.mem_cons_of_mem x hy))]

theorem map_name_filterMap (K : List String) (f : String → Option PackageDiff)
    (hf : ∀ n d, f n = some d → d.name = n) :
    (K.filterMap f).map PackageDiff.name = K.filter (fun n => (f n).isSome) := by
  induction K with
  | nil => rfl
  | cons n K ih =>
    rw [List.filterMap_cons, List.filter_cons]
    cases hn : f n with
    | none => simp [hn, ih]
    | some d => simp [hn, List.map_cons, ih, hf n d hn]

theorem sorted_strict_of_sorted_nodup (L : List PackageDiff)
    (hs : List.Sorted (fun p q : PackageDiff => strLe p.name q.name = true) L)
    (hn : (L.map PackageDiff.name).Nodup) :
    List.Sorted (fun p q : PackageDiff => strLe q.name p.name = false) L := by
  have hn2 : List.Pairwise (fun p q : PackageDiff => p.name ≠ q.name) L := by
    rw [List.Nodup, List.pairwise_map] at hn
    exact hn
  refine (hs.and hn2).imp ?_
  rintro p q ⟨hle, hne⟩
  cases h : strLe q.name p.name
  · rfl
  · exact absurd (strLe_antisymm hle h) hne

theorem sorted_strict_names_of_sorted_nodup (K : List String)
    (hs : List.Sorted (fun s t : String => strLe s t = true) K) (hn : K.Nodup) :
    List.Sorted (fun s t : String => strLe t s = false) K := by
  refine (hs.and hn).imp ?_
  rintro s t ⟨hle, hne⟩
  cases h : strLe t s
  · rfl
  · exact absurd (strLe_antisymm hle h) hne

/-- The payload record built by `PackageDiff::diff` after its name check
succeeds. -/
def diffPair (p q : Package) : PackageDiff :=
  { name := p.name
    version := Difference.diff p.version q.version
    source := Difference.diff_opt p.source q.source
    checksum := Difference.diff_opt p.checksum q.checksum
    dependencies := Difference.diff_vec strLe p.dependencies q.dependencies }

theorem diff_eq_some_diffPair (p q : Package) (h : p.name = q.name) :
    PackageDiff.diff p q = some (diffPair p q) := by
  rw [PackageDiff.diff, if_neg (by simp [h]), diffPair]

/-- What the first loop of `CargoLockDiff::difference` pushes for one entry
of map `a`: the two-sided diff when the key is also in map `b`, the
one-sided `removed` otherwise. -/
def aggRecord (mb : List (String × Package)) (kv : String × Package) : PackageDiff :=
  match alookup mb kv.1 with
  | some q => diffPair kv.2 q
  | none => PackageDiff.removed kv.2

theorem alookup_name (m : List (String × Package))
    (hm : ∀ kv ∈ m, (kv : String × Package).2.name = kv.1) (n : String) (q : Package)
    (h : alookup m n = some q) : q.name = n := by
  rw [alookup] at h
  cases hf : m.find? (fun kv => decide (kv.1 = n)) with
  | none => rw [hf] at h; cases h
  | some kv =>
    rw [hf] at h
    have h2 : kv.2 = q := by simpa using h
    have h3 := List.find?_some hf
    have h4 := List.mem_of_find?_eq_some hf
    rw [← h2, hm kv h4]
    exact of_decide_eq_true h3

theorem specRecordDiff_name (a b : CargoLock) (n : String) (d : PackageDiff)
    (h : specRecordDiff a b n = some d) : d.name = n := by
  cases ha : lookupLast a.package n with
  | some pa =>
    cases hb : lookupLast b.package n with
    | some pb =>
      simp only [specRecordDiff, ha, hb] at h
      rw [diff_eq_some_diffPair pa pb
        ((lookupLast_name _ _ _ ha).trans (lookupLast_name _ _ _ hb).symm)] at h
      cases h
      exact lookupLast_name _ _ _ ha
    | none =>
      simp only [specRecordDiff, ha, hb] at h
      cases h
      exact lookupLast_name _ _ _ ha
  | none =>
    cases hb : lookupLast b.package n with
    | some pb =>
      simp only [specRecordDiff, ha, hb] at h
      cases h
      exact lookupLast_name _ _ _ hb
    | none =>
      simp only [specRecordDiff, ha, hb] at h
      cases h

theorem diffmain_L1 (a b : CargoLock) :
    ((pkgMap a.package).map Prod.fst).filterMap (specRecordDiff a b)
      = (pkgMap a.package).map (aggRecord (pkgMap b.package)) := by
  rw [List.filterMap_map]
  apply filterMap_eq_map_of_some
  intro kv hkv
  have hname := pkgMap_snd_name a.package kv hkv
  have hlookA : lookupLast a.package kv.1 = some kv.2 := by
    rw [← alookup_pkgMap]
    exact alookup_mem_of_nodup _ (keys_pkgMap_nodup _) kv hkv
  show specRecordDiff a b kv.1 = some (aggRecord (pkgMap b.package) kv)
  rw [specRecordDiff, hlookA, aggRecord, alookup_pkgMap]
  cases hq : lookupLast b.package kv.1 with
  | some q =>
    exact diff_eq_some_diffPair kv.2 q (hname.trans (lookupLast_name _ _ _ hq).symm)
  | none => rfl

theorem diffmain_L2 (a b : CargoLock) :
    (pkgMap b.package).filterMap (fun kv =>
      if (pkgMap a.package).any (fun kv2 => decide (kv2.1 = kv.1)) then none
      else some (PackageDiff.added kv.2))
    = (((pkgMap b.package).map Prod.fst).filter
        (fun n => !decide (n ∈ (pkgMap a.package).map Prod.fst))).filterMap
        (specRecordDiff a b) := by
  rw [List.filterMap_filter, List.filterMap_map]
  apply filterMap_congr_mem
  intro kv hkv
  by_cases hmem : kv.1 ∈ (pkgMap a.package).map Prod.fst
  · have hany : (pkgMap a.package).any (fun kv2 => decide (kv2.1 = kv.1)) = true := by
      rcases List.mem_map.mp hmem with ⟨kv2, hkv2, he⟩
      exact List.any_eq_true.mpr ⟨kv2, hkv2, by simp [he]⟩
    simp [hany, hmem]
  · have hany : (pkgMap a.package).any (fun kv2 => decide (kv2.1 = kv.1)) = false := by
      rw [List.any_eq_false]
      intro kv2 hkv2
      simp only [decide_eq_true_eq]
      intro he
      exact hmem (List.mem_map.mpr ⟨kv2, hkv2, he⟩)
    have hlookB : lookupLast b.package kv.1 = some kv.2 := by
      rw [← alookup_pkgMap]
      exact alookup_mem_of_nodup _ (keys_pkgMap_nodup _) kv hkv
    have hlookA : lookupLast a.package kv.1 = none := by
      rw [← alookup_pkgMap, alookup_eq_none_iff]
      exact hmem
    have hspec : specRecordDiff a b kv.1 = some (PackageDiff.added kv.2) := by
      simp only [specRecordDiff, hlookA, hlookB]
    simp [hany, hmem, hspec]

theorem diffmain_keys_perm (a b : CargoLock) :
    ((pkgMap a.package).map Prod.fst ++
      ((pkgMap b.package).map Prod.fst).filter
        (fun n => !decide (n ∈ (pkgMap a.package).map Prod.fst))).Perm (sortedNames a b) := by
  have hKA := keys_pkgMap_nodup a.package
  have hKB := keys_pkgMap_nodup b.package
  have hnd1 : ((pkgMap a.package).map Prod.fst ++
      ((pkgMap b.package).map Prod.fst).filter
        (fun n => !decide (n ∈ (pkgMap a.package).map Prod.fst))).Nodup := by
    refine hKA.append (hKB.filter _) ?_
    intro n hn hn2
    rcases (List.mem_filter.mp hn2) with ⟨_, hp⟩
    simp only [Bool.not_eq_true', decide_eq_false_iff_not] at hp
    exact hp hn
  have hnd2 : (sortedNames a b).Nodup :=
    (List.perm_insertionSort _ _).nodup_iff.mpr (List.nodup_dedup _)
  rw [List.perm_ext_iff_of_nodup hnd1 hnd2]
  intro n
  simp only [List.mem_append, List.mem_filter, sortedNames, List.mem_insertionSort,
    List.mem_dedup, List.mem_append, mem_keys_pkgMap, Bool.not_eq_true',
    decide_eq_false_iff_not]
  constructor
  · rintro (h | ⟨h, _⟩)
    · exact Or.inl h
    · exact Or.inr h
  · rintro (h | h)
    · exact Or.inl h
    · by_cases ha : n ∈ a.package.map Package.name
      · exact Or.inl ha
      · exact Or.inr ⟨h, ha⟩

theorem sortedNames_sorted (a b : CargoLock) :
    List.Sorted (fun s t : String => strLe s t = true) (sortedNames a b) := by
  haveI : IsTotal String (fun s t : String => strLe s t = true) :=
    ⟨fun s t => strLe_total s t⟩
  haveI : IsTrans String (fun s t : String => strLe s t = true) :=
    ⟨fun s t u h1 h2 => strLe_trans h1 h2⟩
  exact List.sorted_insertionSort _ _

theorem spec_package_names (a b : CargoLock) :
    ((specDifference a b).package).map PackageDiff.name =
      (sortedNames a b).filter (fun n => (specRecordDiff a b n).isSome) := by
  exact map_name_filterMap _ _ (specRecordDiff_name a b)

theorem spec_package_names_nodup (a b : CargoLock) :
    (((specDifference a b).package).map PackageDiff.name).Nodup := by
  rw [spec_package_names]
  exact ((List.perm_insertionSort _ _).nodup_iff.mpr (List.nodup_dedup _)).filter _

theorem spec_package_sorted (a b : CargoLock) :
    List.Sorted (fun p q : PackageDiff => strLe p.name q.name = true)
      ((specDifference a b).package) := by
  have h1 : List.Pairwise (fun s t : String => strLe s t = true)
      (((specDifference a b).package).map PackageDiff.name) := by
    rw [spec_package_names]
    exact (sortedNames_sorted a b).filter _
  exact List.pairwise_map.mp h1

theorem difference_unfold (a b : CargoLock) :
    CargoLockDiff.difference a b = some
      { version := Difference.diff a.version b.version
        package := ((pkgMap a.package).map (aggRecord (pkgMap b.package)) ++
          (pkgMap b.package).filterMap (fun kv =>
            if (pkgMap a.package).any (fun kv2 => decide (kv2.1 = kv.1)) then none
            else some (PackageDiff.added kv.2))).insertionSort
          (fun p q => strLe p.name q.name = true) } := by
  have hmapM : (pkgMap a.package).mapM (fun kv =>
      match alookup (pkgMap b.package) kv.1 with
      | some q => PackageDiff.diff kv.2 q
      | none => some (PackageDiff.removed kv.2))
      = some ((pkgMap a.package).map (aggRecord (pkgMap b.package))) := by
    apply mapM_option_eq_map
    intro kv hkv
    have hname := pkgMap_snd_name a.package kv hkv
    cases hq : alookup (pkgMap b.package) kv.1 with
    | some q =>
      have hqname : q.name = kv.1 := alookup_name _ (pkgMap_snd_name b.package) _ _ hq
      simp only [hq, aggRecord]
      exact diff_eq_some_diffPair kv.2 q (hname.trans hqname.symm)
    | none => simp only [hq, aggRecord]
  unfold CargoLockDiff.difference
  simp only [hmapM]
  rfl

/-- C3: the Aggregate Diff Builder `CargoLockDiff::difference` returns the
`SnapshotDiff` whose version is the scalar diff of the two format versions
and whose record list has exactly one entry per name in the union of the two
snapshots' name sets — the two-sided diff for names in both, `removed` for
names only in `a`, `added` for names only in `b`, duplicate names within one
snapshot collapsing to the last-seen record — listed in sorted name order.
This is the equation with the map-free `specDifference`, so the output is
deterministic and independent of map iteration order; the record list is
sorted by name and names are pairwise distinct. -/
theorem difference_eq_specDifference (a b : CargoLock) :
    CargoLockDiff.difference a b = some (specDifference a b) ∧
      List.Sorted (fun p q : PackageDiff => strLe p.name q.name = true)
        ((specDifference a b).package) ∧
      (((specDifference a b).package).map PackageDiff.name).Nodup := by
  refine ⟨?_, spec_package_sorted a b, spec_package_names_nodup a b⟩
  rw [difference_unfold]
  refine congrArg some ?_
  rw [specDifference, CargoLockDiff.mk.injEq]
  refine ⟨rfl, ?_⟩
  have hp : (((pkgMap a.package).map (aggRecord (pkgMap b.package)) ++
      (pkgMap b.package).filterMap (fun kv =>
        if (pkgMap a.package).any (fun kv2 => decide (kv2.1 = kv.1)) then none
        else some (PackageDiff.added kv.2))).insertionSort
      (fun p q => strLe p.name q.name = true)).Perm
      ((sortedNames a b).filterMap (specRecordDiff a b)) := by
    have e1 : (pkgMap a.package).map (aggRecord (pkgMap b.package)) ++
        (pkgMap b.package).filterMap (fun kv =>
          if (pkgMap a.package).any (fun kv2 => decide (kv2.1 = kv.1)) then none
          else some (PackageDiff.added kv.2))
        = ((pkgMap a.package).map Prod.fst ++
            ((pkgMap b.package).map Prod.fst).filter
              (fun n => !decide (n ∈ (pkgMap a.package).map Prod.fst))).filterMap
            (specRecordDiff a b) := by
      rw [← diffmain_L1, diffmain_L2, ← List.filterMap_append]
    rw [e1]
    exact (List.perm_insertionSort _ _).trans
      (List.Perm.filterMap _ (diffmain_keys_perm a b))
  have hnd : ((((pkgMap a.package).map (aggRecord (pkgMap b.package)) ++
      (pkgMap b.package).filterMap (fun kv =>
        if (pkgMap a.package).any (fun kv2 => decide (kv2.1 = kv.1)) then none
        else some (PackageDiff.added kv.2))).insertionSort
      (fun p q => strLe p.name q.name = true)).map PackageDiff.name).Nodup := by
    refine (hp.map PackageDiff.name).nodup_iff.mpr ?_
    have h2 := spec_package_names_nodup a b
    rw [specDifference] at h2
    exact h2
  have hs1 : List.Sorted (fun p q : PackageDiff => strLe q.name p.name = false)
      (((pkgMap a.package).map (aggRecord (pkgMap b.package)) ++
        (pkgMap b.package).filterMap (fun kv =>
          if (pkgMap a.package).any (fun kv2 => decide (kv2.1 = kv.1)) then none
          else some (PackageDiff.added kv.2))).insertionSort
        (fun p q => strLe p.name q.name = true)) := by
    refine sorted_strict_of_sorted_nodup _ ?_ hnd
    haveI : IsTotal PackageDiff (fun p q : PackageDiff => strLe p.name q.name = true) :=
      ⟨fun p q => strLe_total p.name q.name⟩
    haveI : IsTrans PackageDiff (fun p q : PackageDiff => strLe p.name q.name = true) :=
      ⟨fun p q r h1 h2 => strLe_trans h1 h2⟩
    exact List.sorted_insertionSort _ _
  have hs2 : List.Sorted (fun p q : PackageDiff => strLe q.name p.name = false)
      ((sortedNames a b).filterMap (specRecordDiff a b)) := by
    have h3 := spec_package_sorted a b
    have h4 := spec_package_names_nodup a b
    rw [specDifference] at h3 h4
    exact sorted_strict_of_sorted_nodup _ h3 h4
  haveI : IsAntisymm PackageDiff (fun p q : PackageDiff => strLe q.name p.name = false) :=
    ⟨fun p q h1 h2 => by
      rcases strLe_total p.name q.name with h | h
      · exact absurd h (by simp [h2])
      · exact absurd h (by simp [h1])⟩
  exact List.eq_of_perm_of_sorted hp hs1 hs2

/-- C10: `pretty_print` on a `CargoLockDiff` with an empty package list
panics (the slice bound `package.len() - 1` underflows), although
`CargoLockDiff::difference` legitimately returns such a value when both
snapshots contain no records; rendering succeeds only when the diff has at
least one `RecordDiff`. -/
theorem pretty_print_empty_panics :
    (∀ d : CargoLockDiff, d.package = [] → d.pretty_print = none) ∧
      (∀ v v2 : Nat, ∃ d, CargoLockDiff.difference ⟨v, []⟩ ⟨v2, []⟩ = some d ∧
        d.package = []) ∧
      (∀ d : CargoLockDiff, d.pretty_print = some () → d.package ≠ []) := by
  refine ⟨?_, ?_, ?_⟩
  · intro d hd
    cases hv : d.version <;> simp [CargoLockDiff.pretty_print, hv, hd]
  · intro v v2
    exact ⟨_, difference_unfold ⟨v, []⟩ ⟨v2, []⟩, rfl⟩
  · intro d h hc
    cases hv : d.version <;> simp [CargoLockDiff.pretty_print, hv, hc] at h
  
theorem pretty_print_empty_panics_witness :
    CargoLockDiff.pretty_print ⟨Difference.Equal 3, []⟩ = none ∧
      (∃ d, CargoLockDiff.difference ⟨3, []⟩ ⟨4, []⟩ = some d ∧ d.package = []) :=
  ⟨pretty_print_empty_panics.1 ⟨Difference.Equal 3, []⟩ rfl,
    pretty_print_empty_panics.2.1 3 4⟩

/-- The 1.15.0 `tokio` record from the in-repo test `tokio_1_15_0_lock`. -/
def tokio_1_15_0 : Package :=
  { name := "tokio"
    version := "1.15.0"
    source := some "registry+https://github.com/rust-lang/crates.io-index"
    checksum := some "fbbf1c778ec206785635ce8ad57fe52b3009ae9e0c9f574a728f3049d3e55838"
    dependencies := ["bytes", "libc", "memchr", "mio", "num_cpus", "once_cell",
      "parking_lot", "pin-project-lite", "signal-hook-registry", "tokio-macros", "winapi"] }

/-- The 1.34.0 `tokio` record from the in-repo test `tokio_1_34_0_lock`. -/
def tokio_1_34_0 : Package :=
  { name := "tokio"
    version := "1.34.0"
    source := some "registry+https://github.com/rust-lang/crates.io-index"
    checksum := some "d0c014766411e834f7af5b8f4cf46257aab4036ca95e9d2c144a10f59ad6f5b9"
    dependencies := ["backtrace", "bytes", "libc", "mio", "num_cpus", "parking_lot",
      "pin-project-lite", "signal-hook-registry", "socket2", "tokio-macros",
      "windows-sys 0.48.0"] }

/-- The dependency list the in-repo test `test_package_diff` (and the claim)
expects: the three `Removed` entries listed before the `Equal` entries. -/
def expected_tokio_dependencies : List (Difference String) :=
  [Difference.Removed "memchr", Difference.Removed "once_cell",
    Difference.Removed "winapi", Difference.Equal "bytes", Difference.Equal "libc",
    Difference.Equal "mio", Difference.Equal "num_cpus", Difference.Equal "parking_lot",
    Difference.Equal "pin-project-lite", Difference.Equal "signal-hook-registry",
    Difference.Equal "tokio-macros", Difference.Added "backtrace",
    Difference.Added "socket2", Difference.Added "windows-sys 0.48.0"]

/-- The `PackageDiff` the code actually computes for the two `tokio`
records: the derived order on `Difference` sorts every `Equal` entry before
every `Removed` entry. -/
def actual_tokio_diff : PackageDiff :=
  { name := "tokio"
    version := Difference.Modified "1.15.0" "1.34.0"
    source := Difference.Equal "registry+https://github.com/rust-lang/crates.io-index"
    checksum := Difference.Modified
      "fbbf1c778ec206785635ce8ad57fe52b3009ae9e0c9f574a728f3049d3e55838"
      "d0c014766411e834f7af5b8f4cf46257aab4036ca95e9d2c144a10f59ad6f5b9"
    dependencies := [Difference.Equal "bytes", Difference.Equal "libc",
      Difference.Equal "mio", Difference.Equal "num_cpus", Difference.Equal "parking_lot",
      Difference.Equal "pin-project-lite", Difference.Equal "signal-hook-registry",
      Difference.Equal "tokio-macros", Difference.Removed "memchr",
      Difference.Removed "once_cell", Difference.Removed "winapi",
      Difference.Added "backtrace", Difference.Added "socket2",
      Difference.Added "windows-sys 0.48.0"] }

/-- C2 (evaluation at the failing input): diffing the two `tokio` records
yields the claimed version/source/checksum fields, but the dependency list
comes out with the `Equal` entries sorted before the `Removed` entries — the
canonical (derived) order puts `Equal` before `Removed` — so the result is
not the list the in-repo test `test_package_diff` asserts, in which the
three `Removed` entries come first.  The snapshot-level diff contains the
same single record diff with an `Equal` version. -/
theorem tokio_record_diff_eval :
    PackageDiff.diff tokio_1_15_0 tokio_1_34_0 = some actual_tokio_diff ∧
      actual_tokio_diff.dependencies ≠ expected_tokio_dependencies ∧
      CargoLockDiff.difference ⟨3, [tokio_1_15_0]⟩ ⟨3, [tokio_1_34_0]⟩
        = some ⟨Difference.Equal 3, [actual_tokio_diff]⟩ := by
  refine ⟨by decide, by decide, by decide⟩
